import Mathlib

/-!
Verification of the `Ikm-Python` expression-tree calculator (`src/ikm.py`):
a recursive-descent parser for infix arithmetic formulas, a bottom-up
simplifier applying two factoring rewrites plus constant folding, an
evaluator over integer variable assignments, and a fully parenthesized
renderer.  Python exceptions are modelled with `Except`; Python's
machine-unbounded `int` is `Int`; the parser's and simplifier's recursion
is modelled with an explicit fuel parameter (the source recursion has no
fuel, so every lemma that needs success is accompanied by a fuel-
sufficiency proof showing the fuel chosen in `parse` / `simplify` is
never the reason a run stops).
-/

namespace Ikm

/-- Operator tag of a `BinaryOpNode`: one of `+ - * /`. -/
inductive Op where
  | add
  | sub
  | mul
  | div
deriving DecidableEq, Repr

/-- Expression-tree nodes of `ikm.py`.  `lit n` is `ValueNode` holding an
`int`; `var c` is `ValueNode` holding a one-character variable name;
`neg` is `UnaryMinusNode`; `binop` is `BinaryOpNode`. -/
inductive Node where
  | lit : Int → Node
  | var : Char → Node
  | neg : Node → Node
  | binop : Op → Node → Node → Node
deriving DecidableEq, Repr

/-- Errors raised during evaluation: `ZeroDivisionError` and the
`ValueError` used for an undefined variable in `ValueNode.evaluate`. -/
inductive EvalError where
  | divisionByZero
  | undefinedVariable : Char → EvalError
deriving DecidableEq, Repr

/-- The variable assignment passed to `evaluate` (a Python dict). -/
def Vars : Type := Char → Option Int

/-- The operator dispatch of `BinaryOpNode.evaluate`: `+`, `-`, `*`
with ordinary integer semantics, and `/` as Python `//` (flooring
division, `Int.fdiv`) raising `ZeroDivisionError` on a zero right
operand. -/
def applyOp (op : Op) (a b : Int) : Except EvalError Int :=
  match op with
  | .add => .ok (a + b)
  | .sub => .ok (a - b)
  | .mul => .ok (a * b)
  | .div => if b = 0 then .error .divisionByZero else .ok (a.fdiv b)

/-- Embedding of `Node.evaluate` of `ikm.py`: literals return their value, variables
are looked up (raising for an absent name), unary minus negates, and a
binary node evaluates the left operand, then the right, then applies
its operator. -/
def Node.evaluate : Node → Vars → Except EvalError Int
  | .lit n, _ => .ok n
  | .var c, vars =>
    match vars c with
    | some v => .ok v
    | none => .error (.undefinedVariable c)
  | .neg child, vars =>
    match child.evaluate vars with
    | .ok v => .ok (-v)
    | .error e => .error e
  | .binop op l r, vars =>
    match l.evaluate vars with
    | .error e => .error e
    | .ok a =>
      match r.evaluate vars with
      | .error e => .error e
      | .ok b => applyOp op a b

/-- Python `==` on nodes, as used by the factoring pattern match in
`BinaryOpNode.simplify`.  `ValueNode` and `BinaryOpNode` define
structural `__eq__`; `UnaryMinusNode` does not, so two distinct
`UnaryMinusNode` objects (and the trees compared by `simplify` are
always distinct objects) compare unequal regardless of structure. -/
def nodeEq : Node → Node → Bool
  | .lit a, .lit b => a == b
  | .var a, .var b => a == b
  | .binop o1 l1 r1, .binop o2 l2 r2 => o1 == o2 && nodeEq l1 l2 && nodeEq r1 r2
  | _, _ => false

/-- Size of a tree (number of nodes); the simplifier's fuel measure. -/
def Node.size : Node → Nat
  | .lit _ => 1
  | .var _ => 1
  | .neg child => child.size + 1
  | .binop _ l r => l.size + r.size + 1

/-- The constant-folding tail of `BinaryOpNode.simplify`: if both
(already simplified) operands are integer literals, replace the node by
a literal holding `self.evaluate({})` — which re-raises
`ZeroDivisionError` for a literal division by zero — otherwise return
the node itself. -/
def constFold (op : Op) (l r : Node) : Except EvalError Node :=
  match l, r with
  | .lit a, .lit b =>
    match (Node.binop op (.lit a) (.lit b)).evaluate (fun _ => none) with
    | .ok v => .ok (.lit v)
    | .error e => .error e
  | _, _ => .ok (.binop op l r)

/-- The body of `BinaryOpNode.simplify` after both operands have been
simplified to `l'` and `r'`: for a `+`/`-` node whose operands are both
`*` nodes, try the right-common-factor test `l2 == r2` first, then the
left-common-factor test `l1 == r1`; on a match, rebuild with the
recursively simplified inner node and re-simplify the whole rewritten
node (`rec` is the recursive simplify call); otherwise fall through to
constant folding. -/
def simplifyTail (rec : Node → Except EvalError Node) (op : Op) (l' r' : Node) :
    Except EvalError Node :=
  if op = Op.add ∨ op = Op.sub then
    match l', r' with
    | .binop Op.mul l1 l2, .binop Op.mul r1 r2 =>
      if nodeEq l2 r2 then
        match rec (.binop op l1 r1) with
        | .ok inner => rec (.binop Op.mul inner l2)
        | .error e => .error e
      else if nodeEq l1 r1 then
        match rec (.binop op l2 r2) with
        | .ok inner => rec (.binop Op.mul l1 inner)
        | .error e => .error e
      else constFold op (.binop Op.mul l1 l2) (.binop Op.mul r1 r2)
    | _, _ => constFold op l' r'
  else constFold op l' r'

/-- Fuel-indexed `Node.simplify` of `ikm.py`.  `simplify_master` below
shows any fuel of at least `Node.size` gives the same result, so the
fuel chosen in `Node.simplify` never cuts a run short. -/
def simplifyF : Nat → Node → Except EvalError Node
  | 0, t => .ok t
  | fuel+1, t =>
    match t with
    | .lit n => .ok (.lit n)
    | .var c => .ok (.var c)
    | .neg child =>
      match simplifyF fuel child with
      | .ok (.lit n) => .ok (.lit (-n))
      | .ok child' => .ok (.neg child')
      | .error e => .error e
    | .binop op l r =>
      match simplifyF fuel l with
      | .error e => .error e
      | .ok l' =>
        match simplifyF fuel r with
        | .error e => .error e
        | .ok r' => simplifyTail (simplifyF fuel) op l' r'

/-- Embedding of `Node.simplify` of `ikm.py`. -/
def Node.simplify (t : Node) : Except EvalError Node := simplifyF t.size t

/-- One non-recursive unfolding of `Node.simplify`, with the recursive
occurrences written as `Node.simplify` itself; `simplify_eq_body`
proves that `Node.simplify` satisfies it. -/
def simplifyBody : Node → Except EvalError Node
  | .lit n => .ok (.lit n)
  | .var c => .ok (.var c)
  | .neg child =>
    match child.simplify with
    | .ok (.lit n) => .ok (.lit (-n))
    | .ok child' => .ok (.neg child')
    | .error e => .error e
  | .binop op l r =>
    match l.simplify with
    | .error e => .error e
    | .ok l' =>
      match r.simplify with
      | .error e => .error e
      | .ok r' => simplifyTail Node.simplify op l' r'

/-- Embedding of `ParseError` of `ikm.py`, one constructor per `raise` site, plus the
fuel marker of the embedding (unreachable for the fuel used by `parse`,
which exceeds the recursion depth of any run of the source parser). -/
inductive ParseErr where
  | unexpectedChar : Option Char → ParseErr
  | expectedClosingParen
  | trailingInput
  | outOfFuel
deriving DecidableEq, Repr

/-- Embedding of `Parser._priority`: priority of an operator character, `0` for
anything not in `OPERATORS_PRIORITY`. -/
def priority (c : Char) : Nat :=
  if c = '+' ∨ c = '-' then 1 else if c = '*' ∨ c = '/' then 2 else 0

/-- Membership test `ch in OPERATORS_PRIORITY` of the parser loop. -/
def isOpChar (c : Char) : Bool :=
  c = '+' || c = '-' || c = '*' || c = '/'

/-- The operator tag built from a consumed operator character. -/
def charToOp (c : Char) : Op :=
  if c = '+' then .add else if c = '-' then .sub else if c = '*' then .mul else .div

/-- Value of `int(...)` applied to a scanned run of decimal digits. -/
def digitsVal (cs : List Char) : Nat :=
  cs.foldl (fun acc c => acc * 10 + (c.toNat - 48)) 0

/-- Embedding of `Parser._parse_number`: greedily consume digits and build a literal
holding the (non-negative) scanned integer. -/
def parseNumber (input : List Char) : Node × List Char :=
  (.lit (digitsVal (input.takeWhile Char.isDigit) : Nat),
   input.dropWhile Char.isDigit)

mutual

/-- Embedding of `Parser._parse_expression`: parse one unary operand, then fold in
operators of priority at least `minPrio` (the while loop is
`parseLoop`). -/
def parseExpression : Nat → Nat → List Char → Except ParseErr (Node × List Char)
  | 0, _, _ => .error .outOfFuel
  | fuel+1, minPrio, input =>
    match parseUnary fuel input with
    | .error e => .error e
    | .ok (node, rest) => parseLoop fuel minPrio node rest

/-- The while loop of `Parser._parse_expression`: while the current
character is an operator of priority at least `minPrio`, consume it,
parse the right operand with threshold `priority + 1`, and fold into a
left-growing `BinaryOpNode` chain. -/
def parseLoop : Nat → Nat → Node → List Char → Except ParseErr (Node × List Char)
  | 0, _, _, _ => .error .outOfFuel
  | fuel+1, minPrio, node, input =>
    match input with
    | [] => .ok (node, input)
    | c :: rest =>
      if isOpChar c && decide (minPrio ≤ priority c) then
        match parseExpression fuel (priority c + 1) rest with
        | .error e => .error e
        | .ok (right, rest') => parseLoop fuel minPrio (.binop (charToOp c) node right) rest'
      else .ok (node, input)

/-- Embedding of `Parser._parse_unary`: consume any leading `-` signs into
`UnaryMinusNode` wrappers, then parse a primary. -/
def parseUnary : Nat → List Char → Except ParseErr (Node × List Char)
  | 0, _ => .error .outOfFuel
  | fuel+1, input =>
    match input with
    | [] => parsePrimary fuel input
    | c :: rest =>
      if c = '-' then
        match parseUnary fuel rest with
        | .error e => .error e
        | .ok (child, rest') => .ok (.neg child, rest')
      else parsePrimary fuel input

/-- Embedding of `Parser._parse_primary`: a parenthesized expression (raising when
the closing parenthesis is absent), a digit run, or a one-letter
variable; anything else (including end of input, where `_current`
returns `''`) raises the unexpected-character `ParseError`. -/
def parsePrimary : Nat → List Char → Except ParseErr (Node × List Char)
  | 0, _ => .error .outOfFuel
  | fuel+1, input =>
    match input with
    | [] => .error (.unexpectedChar none)
    | c :: rest =>
      if c = '(' then
        match parseExpression fuel 0 rest with
        | .error e => .error e
        | .ok (node, rest') =>
          match rest' with
          | c2 :: rest'' =>
            if c2 = ')' then .ok (node, rest'') else .error .expectedClosingParen
          | [] => .error .expectedClosingParen
      else if c.isDigit then .ok (parseNumber input)
      else if c.isAlpha then .ok (.var c, rest)
      else .error (.unexpectedChar (some c))

end

/-- The `expr.replace(' ', '')` performed by the `Parser` constructor. -/
def stripSpaces (s : String) : List Char :=
  s.toList.filter (fun c => c ≠ ' ')

/-- Embedding of `Parser.parse` of `ikm.py`: strip spaces, parse a whole expression,
and raise when characters remain. -/
def parse (s : String) : Except ParseErr Node :=
  let chars := stripSpaces s
  match parseExpression (3 * chars.length + 10) 0 chars with
  | .error e => .error e
  | .ok (node, rest) => if rest = [] then .ok node else .error .trailingInput

/-- The character for a decimal digit value (defined for `0`–`9`). -/
def digitChar : Nat → Char
  | 0 => '0'
  | 1 => '1'
  | 2 => '2'
  | 3 => '3'
  | 4 => '4'
  | 5 => '5'
  | 6 => '6'
  | 7 => '7'
  | 8 => '8'
  | _ => '9'

/-- Decimal digit characters of `n : Nat`, most significant first
(empty for `0`; the fuel always suffices since `n` needs at most `n+1`
digits). -/
def natDigits : Nat → Nat → List Char
  | 0, _ => []
  | fuel+1, n =>
    if n = 0 then []
    else natDigits fuel (n / 10) ++ [digitChar (n % 10)]

/-- Python `str` of a non-negative integer. -/
def natText (n : Nat) : List Char :=
  if n = 0 then ['0'] else natDigits (n + 1) n

/-- Python `str` of an `int` (a `-` sign followed by the digits when
negative). -/
def intText (i : Int) : List Char :=
  if i < 0 then '-' :: natText i.natAbs else natText i.toNat

/-- The rendered text of an operator tag. -/
def opChar : Op → Char
  | .add => '+'
  | .sub => '-'
  | .mul => '*'
  | .div => '/'

/-- Embedding of `Node.to_infix` of `ikm.py` as a character list: binary nodes render
as `(<left> <op> <right>)`, unary minus as `-(<child>)`, values as their
literal text. -/
def render : Node → List Char
  | .lit n => intText n
  | .var c => [c]
  | .neg child => '-' :: '(' :: (render child ++ [')'])
  | .binop op l r =>
    '(' :: (render l ++ ' ' :: opChar op :: ' ' :: (render r ++ [')']))

/-- Embedding of `Node.to_infix` of `ikm.py`. -/
def Node.toInfix (t : Node) : String := ⟨render t⟩

/-- The rendered text of a node with the spaces of `to_infix` already
removed, matching what the parser scans after `replace(' ', '')`. -/
def renderS : Node → List Char
  | .lit n => intText n
  | .var c => [c]
  | .neg child => '-' :: '(' :: (renderS child ++ [')'])
  | .binop op l r =>
    '(' :: (renderS l ++ opChar op :: (renderS r ++ [')']))

/-- Well-formed trees for the render/parse round trip: every literal is
non-negative (a negative literal renders as `-<digits>`, which re-parses
as a `UnaryMinus` node) and every variable name is a letter, as the data
model requires. -/
def wf : Node → Bool
  | .lit n => decide (0 ≤ n)
  | .var c => c.isAlpha
  | .neg child => wf child
  | .binop _ l r => wf l && wf r

/-- Every literal of the tree holds a non-negative integer. -/
def litsNonneg : Node → Bool
  | .lit n => decide (0 ≤ n)
  | .var _ => true
  | .neg child => litsNonneg child
  | .binop _ l r => litsNonneg l && litsNonneg r

/-! ### Basic facts about sizes and structural equality -/

theorem size_pos (t : Node) : 1 ≤ t.size := by
  cases t <;> simp [Node.size]

/-- Python `==` on nodes is sound for structural equality: when it
answers `True`, the two trees are structurally equal.  (It is not
complete: `UnaryMinusNode` compares by identity.) -/
theorem nodeEq_eq : ∀ (a b : Node), nodeEq a b = true → a = b
  | .lit x, b => by cases b <;> simp [nodeEq]
  | .var x, b => by cases b <;> simp [nodeEq]
  | .neg c, b => by cases b <;> simp [nodeEq]
  | .binop o l r, b => by
    cases b <;> simp [nodeEq]
    intro ho hl hr
    exact ⟨ho, nodeEq_eq l _ hl, nodeEq_eq r _ hr⟩

/-! ### The simplifier: fuel irrelevance, unfolding equation, and the
shape of its results (a node no larger than the input, or a
division-by-zero error) -/

theorem constFold_shape (op : Op) (l r : Node) :
    (∃ s, constFold op l r = .ok s ∧ s.size ≤ l.size + r.size + 1) ∨
    constFold op l r = .error .divisionByZero := by
  cases l <;> cases r <;>
    try exact Or.inl ⟨_, rfl, Nat.le_refl _⟩
  case lit.lit a b =>
    cases op
    case add => exact Or.inl ⟨_, rfl, by simp [Node.size]⟩
    case sub => exact Or.inl ⟨_, rfl, by simp [Node.size]⟩
    case mul => exact Or.inl ⟨_, rfl, by simp [Node.size]⟩
    case div =>
      by_cases hb : b = 0
      · subst hb
        exact Or.inr rfl
      · refine Or.inl ⟨.lit (a.fdiv b), ?_, by simp [Node.size]⟩
        simp [constFold, Node.evaluate, applyOp, hb]

/-- Combined congruence-and-shape lemma for `simplifyTail`: two
recursive calls that agree (and behave like a simplifier) on all
sufficiently small nodes give the same tail result, and that result is
either a node no larger than the rebuilt binary node or a
division-by-zero error. -/
theorem simplifyTail_master (rec1 rec2 : Node → Except EvalError Node) (op : Op)
    (l' r' : Node)
    (h : ∀ x : Node, x.size ≤ l'.size + r'.size →
      rec1 x = rec2 x ∧
      ((∃ s, rec2 x = .ok s ∧ s.size ≤ x.size) ∨ rec2 x = .error .divisionByZero)) :
    simplifyTail rec1 op l' r' = simplifyTail rec2 op l' r' ∧
    ((∃ s, simplifyTail rec2 op l' r' = .ok s ∧ s.size ≤ l'.size + r'.size + 1) ∨
      simplifyTail rec2 op l' r' = .error .divisionByZero) := by
  have default_case : ∀ (a b : Node), a.size + b.size = l'.size + r'.size →
      (∃ s, constFold op a b = .ok s ∧ s.size ≤ l'.size + r'.size + 1) ∨
      constFold op a b = .error .divisionByZero := by
    intro a b hab
    rcases constFold_shape op a b with ⟨s, hs, hss⟩ | herr
    · exact Or.inl ⟨s, hs, by omega⟩
    · exact Or.inr herr
  unfold simplifyTail
  by_cases hop : op = Op.add ∨ op = Op.sub
  · rw [if_pos hop, if_pos hop]
    rcases l' with m | c | ch | ⟨lo, l1, l2⟩
    · exact ⟨rfl, default_case _ _ rfl⟩
    · exact ⟨rfl, default_case _ _ rfl⟩
    · exact ⟨rfl, default_case _ _ rfl⟩
    rcases r' with m | c | ch | ⟨ro, r1, r2⟩
    · cases lo <;> exact ⟨rfl, default_case _ _ rfl⟩
    · cases lo <;> exact ⟨rfl, default_case _ _ rfl⟩
    · cases lo <;> exact ⟨rfl, default_case _ _ rfl⟩
    cases lo <;> cases ro <;> try exact ⟨rfl, default_case _ _ rfl⟩
    -- the real factoring case: both operands are `*` nodes
    have hs1 := size_pos l1; have hs2 := size_pos l2
    have hs3 := size_pos r1; have hs4 := size_pos r2
    by_cases h22 : nodeEq l2 r2
    · simp only [if_pos h22]
      obtain ⟨heq1, hsh1⟩ := h (.binop op l1 r1) (by simp [Node.size]; omega)
      rw [heq1]
      cases hin : rec2 (.binop op l1 r1) with
      | error e =>
        rcases hsh1 with ⟨s, hs, _⟩ | herr
        · rw [hin] at hs; cases hs
        · rw [hin] at herr
          refine ⟨rfl, Or.inr ?_⟩
          rw [herr]
      | ok inner =>
        dsimp only
        have hinner : inner.size ≤ l1.size + r1.size + 1 := by
          rcases hsh1 with ⟨s, hs, hss⟩ | herr
          · rw [hin] at hs
            cases hs
            simpa [Node.size] using hss
          · rw [hin] at herr; cases herr
        obtain ⟨heq2, hsh2⟩ := h (.binop Op.mul inner l2)
          (by simp [Node.size]; omega)
        rw [heq2]
        refine ⟨rfl, ?_⟩
        rcases hsh2 with ⟨s, hs, hss⟩ | herr
        · refine Or.inl ⟨s, hs, ?_⟩
          simp only [Node.size] at hss ⊢; omega
        · exact Or.inr herr
    · simp only [if_neg h22]
      by_cases h11 : nodeEq l1 r1
      · simp only [if_pos h11]
        obtain ⟨heq1, hsh1⟩ := h (.binop op l2 r2) (by simp [Node.size]; omega)
        rw [heq1]
        cases hin : rec2 (.binop op l2 r2) with
        | error e =>
          rcases hsh1 with ⟨s, hs, _⟩ | herr
          · rw [hin] at hs; cases hs
          · rw [hin] at herr
            refine ⟨rfl, Or.inr ?_⟩
            rw [herr]
        | ok inner =>
          dsimp only
          have hinner : inner.size ≤ l2.size + r2.size + 1 := by
            rcases hsh1 with ⟨s, hs, hss⟩ | herr
            · rw [hin] at hs
              cases hs
              simpa [Node.size] using hss
            · rw [hin] at herr; cases herr
          obtain ⟨heq2, hsh2⟩ := h (.binop Op.mul l1 inner)
            (by simp [Node.size]; omega)
          rw [heq2]
          refine ⟨rfl, ?_⟩
          rcases hsh2 with ⟨s, hs, hss⟩ | herr
          · refine Or.inl ⟨s, hs, ?_⟩
            simp only [Node.size] at hss ⊢; omega
          · exact Or.inr herr
      · simp only [if_neg h11]
        exact ⟨by trivial, default_case (.binop Op.mul l1 l2) (.binop Op.mul r1 r2) rfl⟩
  · rw [if_neg hop, if_neg hop]
    exact ⟨by trivial, default_case l' r' rfl⟩

/-- Master lemma for the simplifier: any fuel of at least `Node.size`
gives the result `simplifyBody` (so the fuel in `Node.simplify` is
irrelevant and `Node.simplify` satisfies its natural one-step unfolding
equation), and that result is either a node no larger than the input or
a division-by-zero error. -/
theorem simplify_master (n : Nat) :
    ∀ t : Node, t.size ≤ n →
    (∀ fuel, t.size ≤ fuel → simplifyF fuel t = simplifyBody t) ∧
    ((∃ s, simplifyBody t = .ok s ∧ s.size ≤ t.size) ∨
      simplifyBody t = .error .divisionByZero) := by
  induction n using Nat.strong_induction_on with
  | _ n IH =>
    intro t hn
    match t with
    | .lit m =>
      refine ⟨fun fuel hf => ?_, Or.inl ⟨.lit m, rfl, Nat.le_refl _⟩⟩
      obtain ⟨f, rfl⟩ : ∃ f, fuel = f + 1 :=
        ⟨fuel - 1, by have := size_pos (Node.lit m); omega⟩
      rfl
    | .var c =>
      refine ⟨fun fuel hf => ?_, Or.inl ⟨.var c, rfl, Nat.le_refl _⟩⟩
      obtain ⟨f, rfl⟩ : ∃ f, fuel = f + 1 :=
        ⟨fuel - 1, by have := size_pos (Node.var c); omega⟩
      rfl
    | .neg child =>
      have hchild : child.size ≤ n - 1 := by
        simp only [Node.size] at hn; omega
      have ihc := IH (n - 1) (by have := size_pos child; omega) child hchild
      have hcs : child.simplify = simplifyBody child := ihc.1 child.size (Nat.le_refl _)
      constructor
      · intro fuel hf
        simp only [Node.size] at hf
        obtain ⟨f, rfl⟩ : ∃ f, fuel = f + 1 := ⟨fuel - 1, by omega⟩
        show (match simplifyF f child with
          | .ok (.lit m) => .ok (.lit (-m))
          | .ok child' => .ok (.neg child')
          | .error e => .error e) = simplifyBody (.neg child)
        rw [ihc.1 f (by omega), show simplifyBody (.neg child) =
          (match simplifyBody child with
          | .ok (.lit m) => .ok (.lit (-m))
          | .ok child' => .ok (.neg child')
          | .error e => .error e) by rw [← hcs]; rfl]
      · show (∃ s, (match child.simplify with
          | .ok (.lit m) => (.ok (.lit (-m)) : Except EvalError Node)
          | .ok child' => .ok (.neg child')
          | .error e => .error e) = .ok s ∧ s.size ≤ (Node.neg child).size) ∨
          (match child.simplify with
          | .ok (.lit m) => (.ok (.lit (-m)) : Except EvalError Node)
          | .ok child' => .ok (.neg child')
          | .error e => .error e) = .error .divisionByZero
        rw [hcs]
        rcases ihc.2 with ⟨s, hs, hss⟩ | herr
        · rw [hs]
          rcases s with m | c | ch | ⟨o, a, b⟩
          · exact Or.inl ⟨.lit (-m), rfl, by simp [Node.size]⟩
          · exact Or.inl ⟨.neg (.var c), rfl, by
              simp only [Node.size] at hss ⊢; omega⟩
          · exact Or.inl ⟨.neg (.neg ch), rfl, by
              simp only [Node.size] at hss ⊢; omega⟩
          · exact Or.inl ⟨.neg (.binop o a b), rfl, by
              simp only [Node.size] at hss ⊢; omega⟩
        · rw [herr]
          exact Or.inr rfl
    | .binop op l r =>
      have hsl := size_pos l
      have hsr := size_pos r
      have hT : l.size + r.size + 1 ≤ n := by
        simpa only [Node.size] using hn
      have ihl := IH (n - 1) (by omega) l (by omega)
      have ihr := IH (n - 1) (by omega) r (by omega)
      have hls : l.simplify = simplifyBody l := ihl.1 l.size (Nat.le_refl _)
      have hrs : r.simplify = simplifyBody r := ihr.1 r.size (Nat.le_refl _)
      -- the hypothesis required by `simplifyTail_master`, available for
      -- any pair of subresults no larger than the operands
      have hrec : ∀ fuel, l.size + r.size ≤ fuel →
          ∀ x : Node, x.size ≤ l.size + r.size →
          simplifyF fuel x = Node.simplify x ∧
          ((∃ s, Node.simplify x = .ok s ∧ s.size ≤ x.size) ∨
            Node.simplify x = .error .divisionByZero) := by
        intro fuel hfuel x hx
        have ihx := IH (n - 1) (by omega) x (by omega)
        have h1 : simplifyF fuel x = simplifyBody x := ihx.1 fuel (by omega)
        have h2 : Node.simplify x = simplifyBody x := ihx.1 x.size (Nat.le_refl _)
        refine ⟨h1.trans h2.symm, ?_⟩
        rw [h2]
        exact ihx.2
      constructor
      · intro fuel hf
        simp only [Node.size] at hf
        obtain ⟨f, rfl⟩ : ∃ f, fuel = f + 1 := ⟨fuel - 1, by omega⟩
        show (match simplifyF f l with
          | .error e => .error e
          | .ok l' =>
            match simplifyF f r with
            | .error e => .error e
            | .ok r' => simplifyTail (simplifyF f) op l' r') =
          simplifyBody (.binop op l r)
        rw [ihl.1 f (by omega), ihr.1 f (by omega),
          show simplifyBody (.binop op l r) =
          (match simplifyBody l with
          | .error e => .error e
          | .ok l' =>
            match simplifyBody r with
            | .error e => .error e
            | .ok r' => simplifyTail Node.simplify op l' r') by
            rw [← hls, ← hrs]; rfl]
        cases hL : simplifyBody l with
        | error e => rfl
        | ok l' =>
          cases hR : simplifyBody r with
          | error e => rfl
          | ok r' =>
            dsimp only
            have hl'size : l'.size ≤ l.size := by
              rcases ihl.2 with ⟨s, hs, hss⟩ | herr
              · rw [hL] at hs; cases hs; exact hss
              · rw [hL] at herr; cases herr
            have hr'size : r'.size ≤ r.size := by
              rcases ihr.2 with ⟨s, hs, hss⟩ | herr
              · rw [hR] at hs; cases hs; exact hss
              · rw [hR] at herr; cases herr
            exact (simplifyTail_master (simplifyF f) Node.simplify op l' r'
              (fun x hx => hrec f (by omega) x (by omega))).1
      · show (∃ s, (match l.simplify with
          | .error e => (.error e : Except EvalError Node)
          | .ok l' =>
            match r.simplify with
            | .error e => .error e
            | .ok r' => simplifyTail Node.simplify op l' r') = .ok s ∧
            s.size ≤ (Node.binop op l r).size) ∨
          (match l.simplify with
          | .error e => (.error e : Except EvalError Node)
          | .ok l' =>
            match r.simplify with
            | .error e => .error e
            | .ok r' => simplifyTail Node.simplify op l' r') =
            .error .divisionByZero
        rw [hls, hrs]
        rcases ihl.2 with ⟨l', hL, hl'size⟩ | herrl
        · rw [hL]
          rcases ihr.2 with ⟨r', hR, hr'size⟩ | herrr
          · rw [hR]
            dsimp only
            rcases (simplifyTail_master Node.simplify Node.simplify op l' r'
              (fun x hx =>
                ⟨rfl, (hrec (l.size + r.size) (Nat.le_refl _) x (by omega)).2⟩)).2 with
              ⟨s, hs, hss⟩ | herr
            · refine Or.inl ⟨s, hs, ?_⟩
              simp only [Node.size]; omega
            · exact Or.inr herr
          · rw [herrr]
            exact Or.inr rfl
        · rw [herrl]
          exact Or.inr rfl

/-- The function `Node.simplify` satisfies the natural one-step unfolding equation:
the fuel in its definition is an artifact of the embedding. -/
theorem simplify_eq_body (t : Node) : t.simplify = simplifyBody t :=
  (simplify_master t.size t (Nat.le_refl _)).1 t.size (Nat.le_refl _)

/-- A simplifier run returns a node no larger than its input, or a
division-by-zero error. -/
theorem simplify_shape (t : Node) :
    (∃ s, t.simplify = .ok s ∧ s.size ≤ t.size) ∨
    t.simplify = .error .divisionByZero := by
  rw [simplify_eq_body]
  exact (simplify_master t.size t (Nat.le_refl _)).2

/-- Successful evaluation of a binary node decomposes into successful
evaluation of both operands followed by the operator dispatch. -/
theorem evaluate_binop_ok {op : Op} {l r : Node} {vars : Vars} {v : Int} :
    (Node.binop op l r).evaluate vars = .ok v ↔
    ∃ a b, l.evaluate vars = .ok a ∧ r.evaluate vars = .ok b ∧
      applyOp op a b = .ok v := by
  constructor
  · intro h
    simp only [Node.evaluate] at h
    cases hle : l.evaluate vars with
    | error e => rw [hle] at h; cases h
    | ok a =>
      rw [hle] at h
      cases hre : r.evaluate vars with
      | error e => rw [hre] at h; cases h
      | ok b =>
        rw [hre] at h
        exact ⟨a, b, rfl, rfl, h⟩
  · rintro ⟨a, b, h1, h2, h3⟩
    simp only [Node.evaluate, h1, h2]
    exact h3

/-- Constant folding preserves evaluation: when the binary node built
from the two operands evaluates successfully, `constFold` succeeds and
its result evaluates to the same value under the same assignment. -/
theorem constFold_eval (op : Op) (l' r' : Node) (vars : Vars) (v : Int)
    (hv : (Node.binop op l' r').evaluate vars = .ok v) :
    ∃ s, constFold op l' r' = .ok s ∧ s.evaluate vars = .ok v := by
  rcases l' with a' | c | ch | ⟨lo, a, b⟩ <;>
    rcases r' with b' | c2 | ch2 | ⟨ro, a2, b2⟩ <;>
    try exact ⟨_, rfl, hv⟩
  -- both operands are integer literals: the fold evaluates the node
  -- with an empty assignment, which coincides with evaluating it under
  -- `vars` because no variable occurs
  have hsame : (Node.binop op (.lit a') (.lit b')).evaluate (fun _ => none) =
      (Node.binop op (.lit a') (.lit b')).evaluate vars := rfl
  refine ⟨.lit v, ?_, rfl⟩
  show (match (Node.binop op (.lit a') (.lit b')).evaluate (fun _ => none) with
    | .ok w => (.ok (.lit w) : Except EvalError Node)
    | .error e => .error e) = .ok (.lit v)
  rw [hsame, hv]

/-- The three possible reductions of `simplifyTail`: the right-common-
factor rewrite, the left-common-factor rewrite (tried only when the
right-factor test fails), or the fall-through to constant folding. -/
theorem simplifyTail_cases (rec : Node → Except EvalError Node) (op : Op)
    (l' r' : Node) :
    ((op = Op.add ∨ op = Op.sub) ∧ ∃ l1 l2 r1 r2,
      l' = .binop .mul l1 l2 ∧ r' = .binop .mul r1 r2 ∧ nodeEq l2 r2 = true ∧
      simplifyTail rec op l' r' =
        (match rec (.binop op l1 r1) with
          | .ok inner => rec (.binop Op.mul inner l2)
          | .error e => .error e)) ∨
    ((op = Op.add ∨ op = Op.sub) ∧ ∃ l1 l2 r1 r2,
      l' = .binop .mul l1 l2 ∧ r' = .binop .mul r1 r2 ∧
      nodeEq l2 r2 = false ∧ nodeEq l1 r1 = true ∧
      simplifyTail rec op l' r' =
        (match rec (.binop op l2 r2) with
          | .ok inner => rec (.binop Op.mul l1 inner)
          | .error e => .error e)) ∨
    simplifyTail rec op l' r' = constFold op l' r' := by
  unfold simplifyTail
  by_cases hop : op = Op.add ∨ op = Op.sub
  · rw [if_pos hop]
    rcases l' with m | c | ch | ⟨lo, l1, l2⟩
    · exact Or.inr (Or.inr rfl)
    · exact Or.inr (Or.inr rfl)
    · exact Or.inr (Or.inr rfl)
    rcases r' with m | c | ch | ⟨ro, r1, r2⟩
    · cases lo <;> exact Or.inr (Or.inr rfl)
    · cases lo <;> exact Or.inr (Or.inr rfl)
    · cases lo <;> exact Or.inr (Or.inr rfl)
    cases lo <;> cases ro <;> try exact Or.inr (Or.inr rfl)
    dsimp only
    by_cases h22 : nodeEq l2 r2
    · exact Or.inl ⟨hop, l1, l2, r1, r2, rfl, rfl, h22, by rw [if_pos h22]⟩
    · have h22' : nodeEq l2 r2 = false := by
        revert h22; cases nodeEq l2 r2 <;> simp
      by_cases h11 : nodeEq l1 r1
      · exact Or.inr (Or.inl ⟨hop, l1, l2, r1, r2, rfl, rfl, h22', h11, by
          rw [if_neg h22, if_pos h11]⟩)
      · refine Or.inr (Or.inr ?_)
        rw [if_neg h22, if_neg h11]
  · rw [if_neg hop]
    exact Or.inr (Or.inr rfl)

/-- Simplification preserves evaluation: whenever a tree evaluates
successfully under some assignment, its simplification succeeds and the
simplified tree evaluates to the same integer under that assignment. -/
theorem simplify_preserves (n : Nat) :
    ∀ t : Node, t.size ≤ n → ∀ (vars : Vars) (v : Int),
    t.evaluate vars = .ok v →
    ∃ s, t.simplify = .ok s ∧ s.evaluate vars = .ok v := by
  induction n using Nat.strong_induction_on with
  | _ n IH =>
    intro t hn vars v hv
    match t with
    | .lit m => exact ⟨.lit m, by rw [simplify_eq_body]; rfl, hv⟩
    | .var c => exact ⟨.var c, by rw [simplify_eq_body]; rfl, hv⟩
    | .neg child =>
      have hchild : child.size ≤ n - 1 := by
        have := size_pos child; simp only [Node.size] at hn; omega
      have hv' : (match child.evaluate vars with
        | .ok w => (.ok (-w) : Except EvalError Int)
        | .error e => .error e) = .ok v := hv
      cases hce : child.evaluate vars with
      | error e => rw [hce] at hv'; cases hv'
      | ok w =>
        rw [hce] at hv'
        have hv2 : (Except.ok (-w) : Except EvalError Int) = .ok v := hv'
        have hvw : -w = v := Except.ok.inj hv2
        obtain ⟨c', hc', hce'⟩ :=
          IH (n - 1) (by have := size_pos child; omega) child hchild vars w hce
        rw [simplify_eq_body]
        have hbody : simplifyBody (.neg child) =
            (match child.simplify with
            | .ok (.lit m) => (.ok (.lit (-m)) : Except EvalError Node)
            | .ok child' => .ok (.neg child')
            | .error e => .error e) := rfl
        rw [hbody, hc']
        rcases c' with m | cc | ch | ⟨o, cl, cr⟩
        · have hm : (Except.ok m : Except EvalError Int) = .ok w := hce'
          have hmw : m = w := Except.ok.inj hm
          exact ⟨.lit (-m), rfl, by
            show (Except.ok (-m) : Except EvalError Int) = .ok v
            rw [hmw, hvw]⟩
        · refine ⟨.neg (.var cc), rfl, ?_⟩
          show (match (Node.var cc).evaluate vars with
            | .ok w => (.ok (-w) : Except EvalError Int)
            | .error e => .error e) = .ok v
          rw [hce', ← hvw]
        · refine ⟨.neg (.neg ch), rfl, ?_⟩
          show (match (Node.neg ch).evaluate vars with
            | .ok w => (.ok (-w) : Except EvalError Int)
            | .error e => .error e) = .ok v
          rw [hce', ← hvw]
        · refine ⟨.neg (.binop o cl cr), rfl, ?_⟩
          show (match (Node.binop o cl cr).evaluate vars with
            | .ok w => (.ok (-w) : Except EvalError Int)
            | .error e => .error e) = .ok v
          rw [hce', ← hvw]
    | .binop op l r =>
      have hsl := size_pos l
      have hsr := size_pos r
      have hT : l.size + r.size + 1 ≤ n := by simpa only [Node.size] using hn
      obtain ⟨a, b, hle, hre, hopv⟩ := evaluate_binop_ok.mp hv
      obtain ⟨l', hL, hLe⟩ := IH (n - 1) (by omega) l (by omega) vars a hle
      obtain ⟨r', hR, hRe⟩ := IH (n - 1) (by omega) r (by omega) vars b hre
      have hl'size : l'.size ≤ l.size := by
        rcases simplify_shape l with ⟨s, hs, hss⟩ | herr
        · rw [hL] at hs; cases hs; exact hss
        · rw [hL] at herr; cases herr
      have hr'size : r'.size ≤ r.size := by
        rcases simplify_shape r with ⟨s, hs, hss⟩ | herr
        · rw [hR] at hs; cases hs; exact hss
        · rw [hR] at herr; cases herr
      rw [simplify_eq_body]
      have hbody : simplifyBody (.binop op l r) = simplifyTail Node.simplify op l' r' := by
        simp only [simplifyBody, hL, hR]
      rw [hbody]
      rcases simplifyTail_cases Node.simplify op l' r' with
        ⟨hpm, l1, l2, r1, r2, hl'eq, hr'eq, h22, hteq⟩ |
        ⟨hpm, l1, l2, r1, r2, hl'eq, hr'eq, h22f, h11t, hteq⟩ | hfall
      · -- right-common-factor rewrite
        subst hl'eq; subst hr'eq
        simp only [Node.size] at hl'size hr'size
        have hp1 := size_pos l1; have hp2 := size_pos l2
        have hp3 := size_pos r1; have hp4 := size_pos r2
        obtain ⟨x1, x2, he1, he2, hax⟩ := evaluate_binop_ok.mp hLe
        obtain ⟨y1, y2, hf1, hf2, hbx⟩ := evaluate_binop_ok.mp hRe
        have ha : x1 * x2 = a := Except.ok.inj hax
        have hb : y1 * y2 = b := Except.ok.inj hbx
        have hl2r2 : l2 = r2 := nodeEq_eq _ _ h22
        subst hl2r2
        have hx2y2 : x2 = y2 := by
          rw [he2] at hf2; exact Except.ok.inj hf2
        rcases hpm with rfl | rfl
        · have hvab : a + b = v := Except.ok.inj hopv
          have hA : (Node.binop Op.add l1 r1).evaluate vars = .ok (x1 + y1) :=
            evaluate_binop_ok.mpr ⟨x1, y1, he1, hf1, rfl⟩
          obtain ⟨X, hX, hXe⟩ := IH (n - 1) (by omega) (.binop Op.add l1 r1)
            (by simp only [Node.size]; omega) vars (x1 + y1) hA
          have hXsize : X.size ≤ l1.size + r1.size + 1 := by
            rcases simplify_shape (Node.binop Op.add l1 r1) with ⟨s, hs, hss⟩ | herr
            · rw [hX] at hs; cases hs
              simpa only [Node.size] using hss
            · rw [hX] at herr; cases herr
          have hB : (Node.binop Op.mul X l2).evaluate vars = .ok ((x1 + y1) * x2) :=
            evaluate_binop_ok.mpr ⟨x1 + y1, x2, hXe, he2, rfl⟩
          obtain ⟨S, hS, hSe⟩ := IH (n - 1) (by omega) (.binop Op.mul X l2)
            (by simp only [Node.size]; omega) vars ((x1 + y1) * x2) hB
          refine ⟨S, ?_, ?_⟩
          · rw [hteq, hX]
            exact hS
          · rw [hSe]
            have : (x1 + y1) * x2 = v := by
              rw [← hvab, ← ha, ← hb, ← hx2y2]; ring
            rw [this]
        · have hvab : a - b = v := Except.ok.inj hopv
          have hA : (Node.binop Op.sub l1 r1).evaluate vars = .ok (x1 - y1) :=
            evaluate_binop_ok.mpr ⟨x1, y1, he1, hf1, rfl⟩
          obtain ⟨X, hX, hXe⟩ := IH (n - 1) (by omega) (.binop Op.sub l1 r1)
            (by simp only [Node.size]; omega) vars (x1 - y1) hA
          have hXsize : X.size ≤ l1.size + r1.size + 1 := by
            rcases simplify_shape (Node.binop Op.sub l1 r1) with ⟨s, hs, hss⟩ | herr
            · rw [hX] at hs; cases hs
              simpa only [Node.size] using hss
            · rw [hX] at herr; cases herr
          have hB : (Node.binop Op.mul X l2).evaluate vars = .ok ((x1 - y1) * x2) :=
            evaluate_binop_ok.mpr ⟨x1 - y1, x2, hXe, he2, rfl⟩
          obtain ⟨S, hS, hSe⟩ := IH (n - 1) (by omega) (.binop Op.mul X l2)
            (by simp only [Node.size]; omega) vars ((x1 - y1) * x2) hB
          refine ⟨S, ?_, ?_⟩
          · rw [hteq, hX]
            exact hS
          · rw [hSe]
            have : (x1 - y1) * x2 = v := by
              rw [← hvab, ← ha, ← hb, ← hx2y2]; ring
            rw [this]
      · -- left-common-factor rewrite
        subst hl'eq; subst hr'eq
        simp only [Node.size] at hl'size hr'size
        have hp1 := size_pos l1; have hp2 := size_pos l2
        have hp3 := size_pos r1; have hp4 := size_pos r2
        obtain ⟨x1, x2, he1, he2, hax⟩ := evaluate_binop_ok.mp hLe
        obtain ⟨y1, y2, hf1, hf2, hbx⟩ := evaluate_binop_ok.mp hRe
        have ha : x1 * x2 = a := Except.ok.inj hax
        have hb : y1 * y2 = b := Except.ok.inj hbx
        have hl1r1 : l1 = r1 := nodeEq_eq _ _ h11t
        subst hl1r1
        have hx1y1 : x1 = y1 := by
          rw [he1] at hf1; exact Except.ok.inj hf1
        rcases hpm with rfl | rfl
        · have hvab : a + b = v := Except.ok.inj hopv
          have hA : (Node.binop Op.add l2 r2).evaluate vars = .ok (x2 + y2) :=
            evaluate_binop_ok.mpr ⟨x2, y2, he2, hf2, rfl⟩
          obtain ⟨X, hX, hXe⟩ := IH (n - 1) (by omega) (.binop Op.add l2 r2)
            (by simp only [Node.size]; omega) vars (x2 + y2) hA
          have hXsize : X.size ≤ l2.size + r2.size + 1 := by
            rcases simplify_shape (Node.binop Op.add l2 r2) with ⟨s, hs, hss⟩ | herr
            · rw [hX] at hs; cases hs
              simpa only [Node.size] using hss
            · rw [hX] at herr; cases herr
          have hB : (Node.binop Op.mul l1 X).evaluate vars = .ok (x1 * (x2 + y2)) :=
            evaluate_binop_ok.mpr ⟨x1, x2 + y2, he1, hXe, rfl⟩
          obtain ⟨S, hS, hSe⟩ := IH (n - 1) (by omega) (.binop Op.mul l1 X)
            (by simp only [Node.size]; omega) vars (x1 * (x2 + y2)) hB
          refine ⟨S, ?_, ?_⟩
          · rw [hteq, hX]
            exact hS
          · rw [hSe]
            have : x1 * (x2 + y2) = v := by
              rw [← hvab, ← ha, ← hb, ← hx1y1]; ring
            rw [this]
        · have hvab : a - b = v := Except.ok.inj hopv
          have hA : (Node.binop Op.sub l2 r2).evaluate vars = .ok (x2 - y2) :=
            evaluate_binop_ok.mpr ⟨x2, y2, he2, hf2, rfl⟩
          obtain ⟨X, hX, hXe⟩ := IH (n - 1) (by omega) (.binop Op.sub l2 r2)
            (by simp only [Node.size]; omega) vars (x2 - y2) hA
          have hXsize : X.size ≤ l2.size + r2.size + 1 := by
            rcases simplify_shape (Node.binop Op.sub l2 r2) with ⟨s, hs, hss⟩ | herr
            · rw [hX] at hs; cases hs
              simpa only [Node.size] using hss
            · rw [hX] at herr; cases herr
          have hB : (Node.binop Op.mul l1 X).evaluate vars = .ok (x1 * (x2 - y2)) :=
            evaluate_binop_ok.mpr ⟨x1, x2 - y2, he1, hXe, rfl⟩
          obtain ⟨S, hS, hSe⟩ := IH (n - 1) (by omega) (.binop Op.mul l1 X)
            (by simp only [Node.size]; omega) vars (x1 * (x2 - y2)) hB
          refine ⟨S, ?_, ?_⟩
          · rw [hteq, hX]
            exact hS
          · rw [hSe]
            have : x1 * (x2 - y2) = v := by
              rw [← hvab, ← ha, ← hb, ← hx1y1]; ring
            rw [this]
      · -- fall through to constant folding
        have hv' : (Node.binop op l' r').evaluate vars = .ok v :=
          evaluate_binop_ok.mpr ⟨a, b, hLe, hRe, hopv⟩
        obtain ⟨s, hs, hse⟩ := constFold_eval op l' r' vars v hv'
        exact ⟨s, by rw [hfall]; exact hs, hse⟩

/-- A successful `constFold` returns either a literal (both operands
were integer literals) or the untouched binary node. -/
theorem constFold_ok (op : Op) (l r : Node) (s : Node)
    (h : constFold op l r = .ok s) :
    (∃ m : Int, s = .lit m) ∨ s = .binop op l r := by
  rcases l with a | c | ch | ⟨lo, a, b⟩ <;>
    rcases r with a2 | c2 | ch2 | ⟨ro, a2, b2⟩ <;>
    try exact Or.inr (Except.ok.inj h).symm
  have h' : (match (Node.binop op (.lit a) (.lit a2)).evaluate (fun _ => none) with
    | .ok v => (.ok (.lit v) : Except EvalError Node)
    | .error e => .error e) = .ok s := h
  cases hev : (Node.binop op (.lit a) (.lit a2)).evaluate (fun _ => none) with
  | error e => rw [hev] at h'; cases h'
  | ok v =>
    rw [hev] at h'
    have : (Except.ok (Node.lit v) : Except EvalError Node) = .ok s := h'
    exact Or.inl ⟨v, (Except.ok.inj this).symm⟩

/-- Simplification is idempotent: a tree returned by a successful
`simplify` run is a fixed point of `simplify`. -/
theorem simplify_idem_aux (n : Nat) :
    ∀ t : Node, t.size ≤ n → ∀ s, t.simplify = .ok s → s.simplify = .ok s := by
  induction n using Nat.strong_induction_on with
  | _ n IH =>
    intro t hn s hs
    match t with
    | .lit m =>
      rw [simplify_eq_body] at hs
      have : (Except.ok (Node.lit m) : Except EvalError Node) = .ok s := hs
      cases Except.ok.inj this
      rw [simplify_eq_body]; rfl
    | .var c =>
      rw [simplify_eq_body] at hs
      have : (Except.ok (Node.var c) : Except EvalError Node) = .ok s := hs
      cases Except.ok.inj this
      rw [simplify_eq_body]; rfl
    | .neg child =>
      have hchild : child.size ≤ n - 1 := by
        have := size_pos child; simp only [Node.size] at hn; omega
      rw [simplify_eq_body] at hs
      have hs' : (match child.simplify with
        | .ok (.lit m) => (.ok (.lit (-m)) : Except EvalError Node)
        | .ok child' => .ok (.neg child')
        | .error e => .error e) = .ok s := hs
      cases hc : child.simplify with
      | error e => rw [hc] at hs'; cases hs'
      | ok c' =>
        rw [hc] at hs'
        have hidc : c'.simplify = .ok c' :=
          IH (n - 1) (by have := size_pos child; omega) child hchild c' hc
        rcases c' with m | cc | ch | ⟨o, cl, cr⟩
        · have : (Except.ok (Node.lit (-m)) : Except EvalError Node) = .ok s := hs'
          cases Except.ok.inj this
          rw [simplify_eq_body]; rfl
        · have : (Except.ok (Node.neg (.var cc)) : Except EvalError Node) = .ok s := hs'
          cases Except.ok.inj this
          rw [simplify_eq_body]
          show (match (Node.var cc).simplify with
            | .ok (.lit m) => (.ok (.lit (-m)) : Except EvalError Node)
            | .ok child' => .ok (.neg child')
            | .error e => .error e) = _
          rw [hidc]
        · have : (Except.ok (Node.neg (.neg ch)) : Except EvalError Node) = .ok s := hs'
          cases Except.ok.inj this
          rw [simplify_eq_body]
          show (match (Node.neg ch).simplify with
            | .ok (.lit m) => (.ok (.lit (-m)) : Except EvalError Node)
            | .ok child' => .ok (.neg child')
            | .error e => .error e) = _
          rw [hidc]
        · have : (Except.ok (Node.neg (.binop o cl cr)) : Except EvalError Node) = .ok s := hs'
          cases Except.ok.inj this
          rw [simplify_eq_body]
          show (match (Node.binop o cl cr).simplify with
            | .ok (.lit m) => (.ok (.lit (-m)) : Except EvalError Node)
            | .ok child' => .ok (.neg child')
            | .error e => .error e) = _
          rw [hidc]
    | .binop op l r =>
      have hsl := size_pos l
      have hsr := size_pos r
      have hT : l.size + r.size + 1 ≤ n := by simpa only [Node.size] using hn
      rw [simplify_eq_body] at hs
      have hs' : (match l.simplify with
        | .error e => (.error e : Except EvalError Node)
        | .ok l' =>
          match r.simplify with
          | .error e => .error e
          | .ok r' => simplifyTail Node.simplify op l' r') = .ok s := hs
      cases hL : l.simplify with
      | error e => rw [hL] at hs'; cases hs'
      | ok l' =>
        rw [hL] at hs'
        cases hR : r.simplify with
        | error e =>
          rw [hR] at hs'; cases hs'
        | ok r' =>
          rw [hR] at hs'
          have hs2 : simplifyTail Node.simplify op l' r' = .ok s := hs'
          have hidl : l'.simplify = .ok l' := IH (n - 1) (by omega) l (by omega) l' hL
          have hidr : r'.simplify = .ok r' := IH (n - 1) (by omega) r (by omega) r' hR
          have hl'size : l'.size ≤ l.size := by
            rcases simplify_shape l with ⟨w, hw, hws⟩ | herr
            · rw [hL] at hw; cases hw; exact hws
            · rw [hL] at herr; cases herr
          have hr'size : r'.size ≤ r.size := by
            rcases simplify_shape r with ⟨w, hw, hws⟩ | herr
            · rw [hR] at hw; cases hw; exact hws
            · rw [hR] at herr; cases herr
          rcases simplifyTail_cases Node.simplify op l' r' with
            ⟨hpm, l1, l2, r1, r2, hl'eq, hr'eq, h22, hteq⟩ |
            ⟨hpm, l1, l2, r1, r2, hl'eq, hr'eq, h22f, h11t, hteq⟩ | hfall
          · subst hl'eq; subst hr'eq
            simp only [Node.size] at hl'size hr'size
            have hp1 := size_pos l1; have hp2 := size_pos l2
            have hp3 := size_pos r1; have hp4 := size_pos r2
            rw [hteq] at hs2
            cases hX : Node.simplify (.binop op l1 r1) with
            | error e => rw [hX] at hs2; cases hs2
            | ok X =>
              rw [hX] at hs2
              have hs3 : Node.simplify (.binop Op.mul X l2) = .ok s := hs2
              have hXsize : X.size ≤ l1.size + r1.size + 1 := by
                rcases simplify_shape (Node.binop op l1 r1) with ⟨w, hw, hws⟩ | herr
                · rw [hX] at hw; cases hw
                  simpa only [Node.size] using hws
                · rw [hX] at herr; cases herr
              exact IH (n - 1) (by omega) (.binop Op.mul X l2)
                (by simp only [Node.size]; omega) s hs3
          · subst hl'eq; subst hr'eq
            simp only [Node.size] at hl'size hr'size
            have hp1 := size_pos l1; have hp2 := size_pos l2
            have hp3 := size_pos r1; have hp4 := size_pos r2
            rw [hteq] at hs2
            cases hX : Node.simplify (.binop op l2 r2) with
            | error e => rw [hX] at hs2; cases hs2
            | ok X =>
              rw [hX] at hs2
              have hs3 : Node.simplify (.binop Op.mul l1 X) = .ok s := hs2
              have hXsize : X.size ≤ l2.size + r2.size + 1 := by
                rcases simplify_shape (Node.binop op l2 r2) with ⟨w, hw, hws⟩ | herr
                · rw [hX] at hw; cases hw
                  simpa only [Node.size] using hws
                · rw [hX] at herr; cases herr
              exact IH (n - 1) (by omega) (.binop Op.mul l1 X)
                (by simp only [Node.size]; omega) s hs3
          · rw [hfall] at hs2
            rcases constFold_ok op l' r' s hs2 with ⟨m, rfl⟩ | rfl
            · rw [simplify_eq_body]; rfl
            · rw [simplify_eq_body]
              have hbody : simplifyBody (.binop op l' r') =
                  simplifyTail Node.simplify op l' r' := by
                simp only [simplifyBody, hidl, hidr]
              rw [hbody, hfall]
              exact hs2

/-! ### Character classes and decimal digit strings -/

theorem isAlpha_ne_minus {c : Char} (h : c.isAlpha = true) : c ≠ '-' := by
  intro heq
  rw [heq] at h
  exact absurd h (by decide)

theorem isAlpha_ne_lparen {c : Char} (h : c.isAlpha = true) : c ≠ '(' := by
  intro heq
  rw [heq] at h
  exact absurd h (by decide)

theorem isAlpha_not_isDigit {c : Char} (h : c.isAlpha = true) : c.isDigit = false := by
  simp only [Char.isAlpha, Char.isUpper, Char.isLower, Bool.or_eq_true, Bool.and_eq_true,
    decide_eq_true_eq] at h
  by_contra hcon
  rw [Bool.not_eq_false] at hcon
  simp only [Char.isDigit, Bool.and_eq_true, decide_eq_true_eq] at hcon
  have hup : c.val.toNat ≤ 57 := UInt32.toNat_le_of_le (by norm_num [UInt32.size]) hcon.2
  rcases h with ⟨h1, h2⟩ | ⟨h1, h2⟩
  · have : 65 ≤ c.val.toNat := UInt32.le_toNat_of_le (by norm_num [UInt32.size]) h1
    omega
  · have : 97 ≤ c.val.toNat := UInt32.le_toNat_of_le (by norm_num [UInt32.size]) h1
    omega

theorem isDigit_ne_minus {c : Char} (h : c.isDigit = true) : c ≠ '-' := by
  intro heq
  rw [heq] at h
  exact absurd h (by decide)

theorem isDigit_ne_lparen {c : Char} (h : c.isDigit = true) : c ≠ '(' := by
  intro heq
  rw [heq] at h
  exact absurd h (by decide)

theorem isDigit_ne_space {c : Char} (h : c.isDigit = true) : ¬ c = ' ' := by
  intro heq
  rw [heq] at h
  exact absurd h (by decide)

theorem digitChar_isDigit {d : Nat} (hd : d < 10) : (digitChar d).isDigit = true := by
  interval_cases d <;> decide

theorem digitChar_toNat {d : Nat} (hd : d < 10) : (digitChar d).toNat - 48 = d := by
  interval_cases d <;> decide

theorem natDigits_all_isDigit : ∀ (fuel n : Nat), ∀ c ∈ natDigits fuel n, c.isDigit = true := by
  intro fuel
  induction fuel with
  | zero => intro n c hc; cases hc
  | succ f ih =>
    intro n c hc
    by_cases hn : n = 0
    · rw [natDigits, if_pos hn] at hc
      cases hc
    · rw [natDigits, if_neg hn] at hc
      rcases List.mem_append.mp hc with h1 | h2
      · exact ih _ c h1
      · rcases List.mem_singleton.mp h2 with rfl
        exact digitChar_isDigit (Nat.mod_lt _ (by omega))

theorem digitsVal_append_singleton (xs : List Char) (c : Char) :
    digitsVal (xs ++ [c]) = digitsVal xs * 10 + (c.toNat - 48) := by
  simp [digitsVal, List.foldl_append]

theorem digitsVal_natDigits : ∀ (fuel n : Nat), n ≤ fuel → digitsVal (natDigits fuel n) = n := by
  intro fuel
  induction fuel with
  | zero =>
    intro n hn
    interval_cases n
    rfl
  | succ f ih =>
    intro n hn
    by_cases hn0 : n = 0
    · rw [natDigits, if_pos hn0, hn0]
      rfl
    · rw [natDigits, if_neg hn0, digitsVal_append_singleton,
        ih (n / 10) (by omega), digitChar_toNat (Nat.mod_lt _ (by omega))]
      omega

theorem natText_all_isDigit (n : Nat) : ∀ c ∈ natText n, c.isDigit = true := by
  intro c hc
  by_cases hn : n = 0
  · rw [natText, if_pos hn] at hc
    rcases List.mem_singleton.mp hc with rfl
    decide
  · rw [natText, if_neg hn] at hc
    exact natDigits_all_isDigit _ _ c hc

theorem digitsVal_natText (n : Nat) : digitsVal (natText n) = n := by
  by_cases hn : n = 0
  · rw [natText, if_pos hn, hn]
    rfl
  · rw [natText, if_neg hn]
    exact digitsVal_natDigits _ _ (Nat.le_succ n)

theorem natDigits_ne_nil (fuel n : Nat) (hf : 0 < fuel) (hn : n ≠ 0) :
    natDigits fuel n ≠ [] := by
  obtain ⟨f, rfl⟩ : ∃ f, fuel = f + 1 := ⟨fuel - 1, by omega⟩
  rw [natDigits, if_neg hn]
  simp

theorem natText_ne_nil (n : Nat) : natText n ≠ [] := by
  by_cases hn : n = 0
  · rw [natText, if_pos hn]; simp
  · rw [natText, if_neg hn]
    exact natDigits_ne_nil _ _ (by omega) hn

/-- Splitting lemma: `takeWhile`/`dropWhile` split an appended list at the boundary when
every character of the prefix satisfies the predicate and the head of
the suffix does not. -/
theorem takeWhile_dropWhile_append {p : Char → Bool} :
    ∀ (xs ys : List Char), (∀ c ∈ xs, p c = true) →
    (∀ c, ys.head? = some c → p c = false) →
    (xs ++ ys).takeWhile p = xs ∧ (xs ++ ys).dropWhile p = ys := by
  intro xs
  induction xs with
  | nil =>
    intro ys _ hhead
    cases ys with
    | nil => exact ⟨rfl, rfl⟩
    | cons c t =>
      have := hhead c rfl
      constructor
      · simp [List.takeWhile, this]
      · simp [List.dropWhile, this]
  | cons x xs ih =>
    intro ys hall hhead
    have hx : p x = true := hall x (List.mem_cons_self _ _)
    have hrec := ih ys (fun c hc => hall c (List.mem_cons_of_mem _ hc)) hhead
    constructor
    · simp [List.takeWhile, hx, hrec.1]
    · simp [List.dropWhile, hx, hrec.2]

/-- Scanning a digit run: `parseNumber` consumes exactly the rendered
digits of `n` and yields the literal `n`. -/
theorem parseNumber_natText (n : Nat) (rest : List Char)
    (hrest : ∀ c, rest.head? = some c → c.isDigit = false) :
    parseNumber (natText n ++ rest) = (.lit (n : Int), rest) := by
  obtain ⟨h1, h2⟩ := takeWhile_dropWhile_append (natText n) rest (natText_all_isDigit n) hrest
  rw [parseNumber, h1, h2, digitsVal_natText]

/-! ### The parser invariant: every literal a successful parse builds
is non-negative (digit scanning never consumes a sign; a leading minus
becomes a separate `UnaryMinusNode`) -/

theorem parser_litsNonneg (fuel : Nat) :
    (∀ minPrio input node rest,
      parseExpression fuel minPrio input = .ok (node, rest) → litsNonneg node = true) ∧
    (∀ minPrio node0 input node rest, litsNonneg node0 = true →
      parseLoop fuel minPrio node0 input = .ok (node, rest) → litsNonneg node = true) ∧
    (∀ input node rest, parseUnary fuel input = .ok (node, rest) → litsNonneg node = true) ∧
    (∀ input node rest, parsePrimary fuel input = .ok (node, rest) → litsNonneg node = true) := by
  induction fuel with
  | zero =>
    refine ⟨?_, ?_, ?_, ?_⟩
    · intro minPrio input node rest h; cases h
    · intro minPrio node0 input node rest h0 h; cases h
    · intro input node rest h; cases h
    · intro input node rest h; cases h
  | succ f ih =>
    obtain ⟨ihE, ihL, ihU, ihP⟩ := ih
    refine ⟨?_, ?_, ?_, ?_⟩
    · intro minPrio input node rest h
      rw [parseExpression] at h
      cases hu : parseUnary f input with
      | error e => rw [hu] at h; cases h
      | ok p =>
        obtain ⟨node0, rest0⟩ := p
        rw [hu] at h
        exact ihL minPrio node0 rest0 node rest (ihU input node0 rest0 hu) h
    · intro minPrio node0 input node rest h0 h
      rw [parseLoop.eq_def] at h
      cases input with
      | nil =>
        have h' : (Except.ok (node0, ([] : List Char)) :
            Except ParseErr (Node × List Char)) = .ok (node, rest) := h
        cases Except.ok.inj h'
        exact h0
      | cons c t =>
        dsimp only at h
        by_cases hcond : (isOpChar c && decide (minPrio ≤ priority c)) = true
        · rw [if_pos hcond] at h
          cases he : parseExpression f (priority c + 1) t with
          | error e => rw [he] at h; cases h
          | ok p =>
            obtain ⟨right, rest'⟩ := p
            rw [he] at h
            have h' : parseLoop f minPrio (.binop (charToOp c) node0 right) rest' =
                .ok (node, rest) := h
            refine ihL _ _ _ _ _ ?_ h'
            have hr := ihE _ _ _ _ he
            simp [litsNonneg, h0, hr]
        · rw [if_neg hcond] at h
          have h' : (Except.ok (node0, c :: t) :
              Except ParseErr (Node × List Char)) = .ok (node, rest) := h
          cases Except.ok.inj h'
          exact h0
    · intro input node rest h
      rw [parseUnary.eq_def] at h
      cases input with
      | nil => exact ihP _ _ _ h
      | cons c t =>
        dsimp only at h
        by_cases hc : c = '-'
        · rw [if_pos hc] at h
          cases hu : parseUnary f t with
          | error e => rw [hu] at h; cases h
          | ok p =>
            obtain ⟨child, rest'⟩ := p
            rw [hu] at h
            have h' : (Except.ok (Node.neg child, rest') :
                Except ParseErr (Node × List Char)) = .ok (node, rest) := h
            cases Except.ok.inj h'
            simpa [litsNonneg] using ihU _ _ _ hu
        · rw [if_neg hc] at h
          exact ihP _ _ _ h
    · intro input node rest h
      rw [parsePrimary.eq_def] at h
      cases input with
      | nil => cases h
      | cons c t =>
        dsimp only at h
        by_cases hp : c = '('
        · rw [if_pos hp] at h
          cases he : parseExpression f 0 t with
          | error e => rw [he] at h; cases h
          | ok p =>
            obtain ⟨node0, rest'⟩ := p
            rw [he] at h
            cases rest' with
            | nil => cases h
            | cons c2 t2 =>
              dsimp only at h
              by_cases hc2 : c2 = ')'
              · rw [if_pos hc2] at h
                have h' : (Except.ok (node0, t2) :
                    Except ParseErr (Node × List Char)) = .ok (node, rest) := h
                cases Except.ok.inj h'
                exact ihE _ _ _ _ he
              · rw [if_neg hc2] at h
                cases h
        · rw [if_neg hp] at h
          by_cases hd : c.isDigit = true
          · rw [if_pos hd] at h
            have h' : (Except.ok (parseNumber (c :: t)) :
                Except ParseErr (Node × List Char)) = .ok (node, rest) := h
            have h2 := Except.ok.inj h'
            rw [parseNumber] at h2
            cases h2
            simp [litsNonneg, Int.natCast_nonneg]
          · rw [if_neg hd] at h
            by_cases ha : c.isAlpha = true
            · rw [if_pos ha] at h
              have h' : (Except.ok (Node.var c, t) :
                  Except ParseErr (Node × List Char)) = .ok (node, rest) := h
              cases Except.ok.inj h'
              rfl
            · rw [if_neg ha] at h
              cases h

/-! ### The render/parse round trip -/

theorem opChar_isOp (op : Op) : isOpChar (opChar op) = true := by
  cases op <;> decide

theorem opChar_not_digit (op : Op) : (opChar op).isDigit = false := by
  cases op <;> decide

theorem charToOp_opChar (op : Op) : charToOp (opChar op) = op := by
  cases op <;> decide

/-- The operator-folding loop stops immediately when the current
character is not an operator (or the input is exhausted). -/
theorem parseLoop_stop (fuel minPrio : Nat) (node : Node) (input : List Char)
    (hf : 1 ≤ fuel)
    (hstop : input = [] ∨ ∃ c t, input = c :: t ∧ isOpChar c = false) :
    parseLoop fuel minPrio node input = .ok (node, input) := by
  obtain ⟨f, rfl⟩ : ∃ f, fuel = f + 1 := ⟨fuel - 1, by omega⟩
  rcases hstop with rfl | ⟨c, t, rfl, hc⟩
  · rfl
  · rw [parseLoop.eq_def]
    dsimp only
    rw [if_neg (by simp [hc])]

/-- Main round-trip lemma: `parseUnary` run on the rendered (space-free)
text of a well-formed tree, followed by any suffix that does not start
with a digit, consumes exactly the rendered text and rebuilds the tree. -/
theorem parseUnary_renderS : ∀ t : Node, wf t = true →
    ∀ (rest : List Char) (fuel : Nat), 4 * t.size ≤ fuel →
    (∀ c, rest.head? = some c → c.isDigit = false) →
    parseUnary fuel (renderS t ++ rest) = .ok (t, rest) := by
  intro t
  induction t with
  | lit n =>
    intro hwf rest fuel hfuel hrest
    have hn : 0 ≤ n := by simpa [wf] using hwf
    have hrS : renderS (.lit n) = natText n.toNat := by
      simp only [renderS, intText, if_neg (not_lt.mpr hn)]
    obtain ⟨f1, rfl⟩ : ∃ g, fuel = g + 2 := ⟨fuel - 2, by simp [Node.size] at hfuel; omega⟩
    obtain ⟨d, ds, hds⟩ : ∃ d ds, natText n.toNat = d :: ds := by
      cases hnt : natText n.toNat with
      | nil => exact absurd hnt (natText_ne_nil _)
      | cons d ds => exact ⟨d, ds, rfl⟩
    have hd : d.isDigit = true :=
      natText_all_isDigit _ d (by rw [hds]; exact List.mem_cons_self _ _)
    rw [hrS, hds]
    show parseUnary (f1 + 1 + 1) (d :: (ds ++ rest)) = _
    rw [parseUnary.eq_def]
    dsimp only
    rw [if_neg (isDigit_ne_minus hd)]
    rw [parsePrimary.eq_def]
    dsimp only
    rw [if_neg (isDigit_ne_lparen hd), if_pos hd]
    rw [show d :: (ds ++ rest) = natText n.toNat ++ rest by rw [hds]; rfl]
    rw [parseNumber_natText _ rest hrest]
    rw [Int.toNat_of_nonneg hn]
  | var c =>
    intro hwf rest fuel hfuel hrest
    have ha : c.isAlpha = true := by simpa [wf] using hwf
    obtain ⟨f1, rfl⟩ : ∃ g, fuel = g + 2 := ⟨fuel - 2, by simp [Node.size] at hfuel; omega⟩
    show parseUnary (f1 + 1 + 1) (c :: rest) = _
    rw [parseUnary.eq_def]
    dsimp only
    rw [if_neg (isAlpha_ne_minus ha)]
    rw [parsePrimary.eq_def]
    dsimp only
    rw [if_neg (isAlpha_ne_lparen ha), if_neg (by simp [isAlpha_not_isDigit ha]),
      if_pos ha]
  | neg child ih =>
    intro hwf rest fuel hfuel hrest
    have hwfc : wf child = true := by simpa [wf] using hwf
    have hsc := size_pos child
    simp only [Node.size] at hfuel
    obtain ⟨f, rfl⟩ : ∃ g, fuel = g + 4 := ⟨fuel - 4, by omega⟩
    have hin : renderS (.neg child) ++ rest =
        '-' :: '(' :: (renderS child ++ (')' :: rest)) := by
      simp [renderS]
    rw [hin]
    have h1 : parseUnary f (renderS child ++ (')' :: rest)) = .ok (child, ')' :: rest) :=
      ih hwfc (')' :: rest) f (by omega) (by intro c hc; cases hc; decide)
    have h2 : parseLoop f 0 child (')' :: rest) = .ok (child, ')' :: rest) :=
      parseLoop_stop f 0 child _ (by omega) (Or.inr ⟨')', rest, rfl, by decide⟩)
    have h3 : parseExpression (f + 1) 0 (renderS child ++ (')' :: rest)) =
        .ok (child, ')' :: rest) := by
      rw [parseExpression, h1]
      exact h2
    have h4 : parsePrimary (f + 2) ('(' :: (renderS child ++ (')' :: rest))) =
        .ok (child, rest) := by
      rw [parsePrimary.eq_def]
      dsimp only
      rw [if_pos rfl, h3]
      dsimp only
      rw [if_pos rfl]
    have h5 : parseUnary (f + 3) ('(' :: (renderS child ++ (')' :: rest))) =
        .ok (child, rest) := by
      rw [parseUnary.eq_def]
      dsimp only
      rw [if_neg (by decide)]
      exact h4
    show parseUnary (f + 3 + 1) _ = _
    rw [parseUnary.eq_def]
    dsimp only
    rw [if_pos rfl, h5]
  | binop op l r ihl ihr =>
    intro hwf rest fuel hfuel hrest
    have hwfl : wf l = true := by
      simp only [wf, Bool.and_eq_true] at hwf; exact hwf.1
    have hwfr : wf r = true := by
      simp only [wf, Bool.and_eq_true] at hwf; exact hwf.2
    have hsl := size_pos l
    have hsr := size_pos r
    simp only [Node.size] at hfuel
    obtain ⟨f, rfl⟩ : ∃ g, fuel = g + 5 := ⟨fuel - 5, by omega⟩
    have hin : renderS (.binop op l r) ++ rest =
        '(' :: (renderS l ++ (opChar op :: (renderS r ++ (')' :: rest)))) := by
      simp [renderS]
    rw [hin]
    -- the right operand, parsed at threshold `priority + 1`
    have hr1 : parseUnary f (renderS r ++ (')' :: rest)) = .ok (r, ')' :: rest) :=
      ihr hwfr (')' :: rest) f (by omega) (by intro c hc; cases hc; decide)
    have hr2 : parseLoop f (priority (opChar op) + 1) r (')' :: rest) =
        .ok (r, ')' :: rest) :=
      parseLoop_stop f _ r _ (by omega) (Or.inr ⟨')', rest, rfl, by decide⟩)
    have hr3 : parseExpression (f + 1) (priority (opChar op) + 1)
        (renderS r ++ (')' :: rest)) = .ok (r, ')' :: rest) := by
      rw [parseExpression, hr1]
      exact hr2
    -- the left operand
    have hl1 : parseUnary (f + 2) (renderS l ++ (opChar op :: (renderS r ++ (')' :: rest)))) =
        .ok (l, opChar op :: (renderS r ++ (')' :: rest))) :=
      ihl hwfl _ (f + 2) (by omega)
        (by intro c hc; cases hc; exact opChar_not_digit op)
    -- the operator-folding loop consumes the operator and stops at `)`
    have hl2 : parseLoop (f + 1) 0 (.binop op l r) (')' :: rest) =
        .ok (.binop op l r, ')' :: rest) :=
      parseLoop_stop _ 0 _ _ (by omega) (Or.inr ⟨')', rest, rfl, by decide⟩)
    have hl3 : parseLoop (f + 2) 0 l (opChar op :: (renderS r ++ (')' :: rest))) =
        .ok (.binop op l r, ')' :: rest) := by
      rw [parseLoop.eq_def]
      dsimp only
      rw [if_pos (by simp [opChar_isOp op]), hr3]
      dsimp only
      rw [charToOp_opChar, hl2]
    have hl4 : parseExpression (f + 3) 0
        (renderS l ++ (opChar op :: (renderS r ++ (')' :: rest)))) =
        .ok (.binop op l r, ')' :: rest) := by
      rw [parseExpression, hl1]
      exact hl3
    have hl5 : parsePrimary (f + 4)
        ('(' :: (renderS l ++ (opChar op :: (renderS r ++ (')' :: rest))))) =
        .ok (.binop op l r, rest) := by
      rw [parsePrimary.eq_def]
      dsimp only
      rw [if_pos rfl, hl4]
      dsimp only
      rw [if_pos rfl]
    show parseUnary (f + 4 + 1) _ = _
    rw [parseUnary.eq_def]
    dsimp only
    rw [if_neg (by decide)]
    exact hl5

theorem isAlpha_ne_space {c : Char} (h : c.isAlpha = true) : ¬ c = ' ' := by
  intro heq
  rw [heq] at h
  exact absurd h (by decide)

theorem intText_no_space (i : Int) : ∀ c ∈ intText i, ¬ c = ' ' := by
  intro c hc
  rw [intText] at hc
  split at hc
  · rcases List.mem_cons.mp hc with rfl | hmem
    · decide
    · exact isDigit_ne_space (natText_all_isDigit _ c hmem)
  · exact isDigit_ne_space (natText_all_isDigit _ c hc)

/-- Stripping the spaces of the rendered text gives `renderS`. -/
theorem filter_render (t : Node) (hwf : wf t = true) :
    (render t).filter (fun c => c ≠ ' ') = renderS t := by
  induction t with
  | lit n =>
    rw [show render (.lit n) = intText n from rfl, show renderS (.lit n) = intText n from rfl]
    rw [List.filter_eq_self]
    intro c hc
    simpa using intText_no_space n c hc
  | var c =>
    have ha : c.isAlpha = true := by simpa [wf] using hwf
    rw [show render (.var c) = [c] from rfl, show renderS (.var c) = [c] from rfl]
    rw [List.filter_eq_self]
    intro a ha2
    rcases List.mem_singleton.mp ha2 with rfl
    simpa using isAlpha_ne_space ha
  | neg child ih =>
    have hwfc : wf child = true := by simpa [wf] using hwf
    simp only [render, renderS, List.filter_cons, List.filter_append]
    rw [ih hwfc]
    rfl
  | binop op l r ihl ihr =>
    have hwfl : wf l = true := by
      simp only [wf, Bool.and_eq_true] at hwf; exact hwf.1
    have hwfr : wf r = true := by
      simp only [wf, Bool.and_eq_true] at hwf; exact hwf.2
    cases op <;>
      · simp only [render, renderS, List.filter_cons, List.filter_append]
        rw [ihl hwfl, ihr hwfr]
        rfl

/-- The fuel `parse` allots always covers the run on a rendered tree. -/
theorem renderS_length (t : Node) : 4 * t.size ≤ 3 * (renderS t).length + 1 := by
  induction t with
  | lit n =>
    have h1 : 1 ≤ (intText n).length := by
      rw [intText]
      split
      · simp
      · have := natText_ne_nil n.toNat
        cases hnt : natText n.toNat with
        | nil => exact absurd hnt this
        | cons d ds => simp [hnt]
    simp only [renderS, Node.size]
    omega
  | var c => simp [renderS, Node.size]
  | neg child ih =>
    simp only [renderS, Node.size, List.length_cons, List.length_append,
      List.length_singleton] at ih ⊢
    omega
  | binop op l r ihl ihr =>
    simp only [renderS, Node.size, List.length_cons, List.length_append,
      List.length_singleton] at ihl ihr ⊢
    omega

/-- Round trip: parsing the rendered text of a well-formed tree yields
back the very same tree. -/
theorem parse_toInfix (t : Node) (hwf : wf t = true) : parse t.toInfix = .ok t := by
  have hstrip : stripSpaces t.toInfix = renderS t := by
    show (render t).filter (fun c => c ≠ ' ') = renderS t
    exact filter_render t hwf
  have hG : 4 * t.size ≤ 3 * (renderS t).length + 9 := by
    have := renderS_length t
    omega
  have hU : parseUnary (3 * (renderS t).length + 9) (renderS t) = .ok (t, []) := by
    have := parseUnary_renderS t hwf [] (3 * (renderS t).length + 9) hG
      (by intro c hc; cases hc)
    rwa [List.append_nil] at this
  have hE : parseExpression (3 * (renderS t).length + 9 + 1) 0 (renderS t) =
      .ok (t, []) := by
    rw [parseExpression, hU]
    exact parseLoop_stop _ 0 t [] (by omega) (Or.inl rfl)
  show (match parseExpression (3 * (stripSpaces t.toInfix).length + 10) 0
      (stripSpaces t.toInfix) with
    | .error e => (.error e : Except ParseErr Node)
    | .ok (node, rest) => if rest = [] then .ok node else .error .trailingInput) = .ok t
  rw [hstrip, show 3 * (renderS t).length + 10 = 3 * (renderS t).length + 9 + 1 from rfl, hE]
  rfl

/-! ### Flooring division is the floor of the exact quotient -/

theorem fdiv_neg_neg : ∀ (a b : Int), Int.fdiv (-a) (-b) = Int.fdiv a b
  | _, Int.ofNat 0 => by simp
  | Int.ofNat 0, Int.ofNat (_+1) => rfl
  | Int.ofNat 0, Int.negSucc _ => rfl
  | Int.ofNat (_+1), Int.ofNat (_+1) => rfl
  | Int.ofNat (_+1), Int.negSucc _ => rfl
  | Int.negSucc _, Int.ofNat (_+1) => rfl
  | Int.negSucc _, Int.negSucc _ => rfl

/-- Python `//` (`Int.fdiv`) computes the floor of the exact rational
quotient, for either sign of a non-zero divisor. -/
theorem fdiv_eq_floor (a : Int) : ∀ (b : Int), b ≠ 0 → Int.fdiv a b = ⌊(a : ℚ) / (b : ℚ)⌋ := by
  have key : ∀ (x : Int) (y : Int), 0 < y → Int.fdiv x y = ⌊(x : ℚ) / (y : ℚ)⌋ := by
    intro x y hy
    have hyn : y = ((y.toNat : ℕ) : ℤ) := (Int.toNat_of_nonneg hy.le).symm
    have h2 : (y : ℚ) = ((y.toNat : ℕ) : ℚ) := by exact_mod_cast hyn
    rw [Int.fdiv_eq_ediv x hy.le, h2, Rat.floor_intCast_div_natCast x y.toNat, ← hyn]
  intro b hb
  rcases lt_or_gt_of_ne hb with hneg | hpos
  · have h1 : Int.fdiv a b = Int.fdiv (-a) (-b) := (fdiv_neg_neg a b).symm
    rw [h1, key (-a) (-b) (by omega)]
    push_cast
    rw [neg_div_neg_eq]
  · exact key a b hpos

/-! ### The claims -/

/-- Claim C1: the spec (and the module docstring) requires `parse` to
raise `ParseError` past 10 levels of parenthesis nesting, via an
explicit open-parenthesis counter.  No such counter exists anywhere in
the code: the 11-deep formula parses successfully to the inner literal
(the depth-10 formula parses as well), contradicting the documented
limit — a bug in the code, witnessed here by evaluating the parser. -/
theorem c1_no_nesting_depth_limit :
    parse "(((((((((((1)))))))))))" = .ok (.lit 1) ∧
    parse "((((((((((1))))))))))" = .ok (.lit 1) := by
  constructor <;> rfl

/-- Claim C2: for every tree and every assignment under which it
evaluates successfully, `simplify` succeeds and the simplified tree
evaluates to the same integer. -/
theorem c2_simplify_preserves_evaluation (t : Node) (vars : Vars) (v : Int)
    (h : t.evaluate vars = .ok v) :
    ∃ s, t.simplify = .ok s ∧ s.evaluate vars = .ok v :=
  simplify_preserves t.size t (Nat.le_refl _) vars v h

/-- Witness for C2 at `a*c + b*c` with `a=2, b=3, c=4`. -/
theorem c2_witness :
    (Node.binop Op.add (.binop .mul (.var 'a') (.var 'c'))
      (.binop .mul (.var 'b') (.var 'c'))).evaluate
      (fun c => if c = 'a' then some 2 else if c = 'b' then some 3 else
        if c = 'c' then some 4 else none) = .ok 20 ∧
    ∃ s, (Node.binop Op.add (.binop .mul (.var 'a') (.var 'c'))
      (.binop .mul (.var 'b') (.var 'c'))).simplify = .ok s ∧
      s.evaluate (fun c => if c = 'a' then some 2 else if c = 'b' then some 3 else
        if c = 'c' then some 4 else none) = .ok 20 :=
  ⟨rfl, c2_simplify_preserves_evaluation _ _ 20 rfl⟩

/-- Counterexample to C3 as stated: `simplify` of the literal division
`1 / 0` raises the division-by-zero error instead of returning a node,
because constant folding calls the evaluation path. -/
theorem c3_counterexample :
    (Node.binop Op.div (.lit 1) (.lit 0)).simplify = .error .divisionByZero := by
  rfl

/-- Claim C3 (amended): `simplify` never raises any error other than
DivisionByZero — for every tree it either returns a node, or raises
DivisionByZero (which happens exactly when constant folding evaluates a
literal division by a zero literal). -/
theorem c3_simplify_total_except_divzero (t : Node) :
    (∃ s, t.simplify = .ok s) ∨ t.simplify = .error .divisionByZero := by
  rcases simplify_shape t with ⟨s, hs, _⟩ | herr
  · exact Or.inl ⟨s, hs⟩
  · exact Or.inr herr

/-- Claim C4: the two factoring rewrites behave as specified —
`a*c+b*c` simplifies to `(a+b)*c` (right common factor), `a*b-a*c`
simplifies to `a*(b-c)` (left common factor), and when both patterns
match (here `a*a + a*a`) the right-common-factor test `l2 == r2` wins,
producing `(a+a)*a` and not `a*(a+a)` — only one rewrite is applied. -/
theorem c4_factoring_rewrites :
    parse "a*c+b*c" = .ok (.binop .add (.binop .mul (.var 'a') (.var 'c'))
      (.binop .mul (.var 'b') (.var 'c'))) ∧
    (Node.binop .add (.binop .mul (.var 'a') (.var 'c'))
      (.binop .mul (.var 'b') (.var 'c'))).simplify =
      .ok (.binop .mul (.binop .add (.var 'a') (.var 'b')) (.var 'c')) ∧
    parse "a*b-a*c" = .ok (.binop .sub (.binop .mul (.var 'a') (.var 'b'))
      (.binop .mul (.var 'a') (.var 'c'))) ∧
    (Node.binop .sub (.binop .mul (.var 'a') (.var 'b'))
      (.binop .mul (.var 'a') (.var 'c'))).simplify =
      .ok (.binop .mul (.var 'a') (.binop .sub (.var 'b') (.var 'c'))) ∧
    (Node.binop .add (.binop .mul (.var 'a') (.var 'a'))
      (.binop .mul (.var 'a') (.var 'a'))).simplify =
      .ok (.binop .mul (.binop .add (.var 'a') (.var 'a')) (.var 'a')) := by
  refine ⟨?_, ?_, ?_, ?_, ?_⟩ <;> rfl

/-- Claim C5: `simplify` is idempotent — re-simplifying the result of a
(successful or failed) simplify run changes nothing. -/
theorem c5_simplify_idempotent (t : Node) :
    (t.simplify).bind Node.simplify = t.simplify := by
  cases hs : t.simplify with
  | error e => rfl
  | ok s =>
    show Node.simplify s = .ok s
    exact simplify_idem_aux t.size t (Nat.le_refl _) s hs

/-- Counterexample to C6 as stated: the tree `Literal (-5)` can be
built directly from the constructors, renders as `-5`, and re-parses as
`UnaryMinus (Literal 5)` — not a tree structurally equal to the
original. -/
theorem c6_counterexample :
    (Node.lit (-5)).toInfix = "-5" ∧
    parse (Node.lit (-5)).toInfix = .ok (.neg (.lit 5)) ∧
    Node.neg (.lit 5) ≠ Node.lit (-5) := by
  refine ⟨rfl, rfl, by decide⟩

/-- Claim C6 (amended): for every tree built from the constructors in
which every literal is non-negative and every variable name is a
letter — the only trees the data model's invariants allow —
`parse (to_infix t)` succeeds and returns a structurally equal tree. -/
theorem c6_roundtrip (t : Node) (h : wf t = true) : parse t.toInfix = .ok t :=
  parse_toInfix t h

/-- Witness for C6 at the directly-built tree `(-(x) - 12)`. -/
theorem c6_witness :
    wf (Node.binop Op.sub (.neg (.var 'x')) (.lit 12)) = true ∧
    parse (Node.binop Op.sub (.neg (.var 'x')) (.lit 12)).toInfix =
      .ok (.binop Op.sub (.neg (.var 'x')) (.lit 12)) :=
  ⟨by decide, c6_roundtrip _ (by decide)⟩

/-- Claim C7: a `/` node whose right operand evaluates to zero raises
DivisionByZero — at evaluation time, and immediately during `simplify`
when constant-folding a literal division by a zero literal; in
particular `evaluate(parse("a/b"), {a: 5, b: 0})` raises it. -/
theorem c7_division_by_zero (l r : Node) (vars : Vars) (a m : Int)
    (hl : l.evaluate vars = .ok a) (hr : r.evaluate vars = .ok 0) :
    (Node.binop Op.div l r).evaluate vars = .error .divisionByZero ∧
    (Node.binop Op.div (.lit m) (.lit 0)).simplify = .error .divisionByZero ∧
    parse "a/b" = .ok (.binop Op.div (.var 'a') (.var 'b')) ∧
    (Node.binop Op.div (.var 'a') (.var 'b')).evaluate
      (fun c => if c = 'a' then some 5 else if c = 'b' then some 0 else none) =
      .error .divisionByZero := by
  refine ⟨?_, ?_, rfl, rfl⟩
  · simp only [Node.evaluate, hl, hr]
    rfl
  · rw [simplify_eq_body]
    rfl

/-- Witness for C7 at `a / b` with `a=5, b=0` and the literal fold `1/0`. -/
theorem c7_witness :
    (Node.var 'a').evaluate
      (fun c => if c = 'a' then some 5 else if c = 'b' then some 0 else none) = .ok 5 ∧
    (Node.var 'b').evaluate
      (fun c => if c = 'a' then some 5 else if c = 'b' then some 0 else none) = .ok 0 ∧
    ((Node.binop Op.div (.var 'a') (.var 'b')).evaluate
      (fun c => if c = 'a' then some 5 else if c = 'b' then some 0 else none) =
      .error .divisionByZero ∧
    (Node.binop Op.div (.lit 1) (.lit 0)).simplify = .error .divisionByZero ∧
    parse "a/b" = .ok (.binop Op.div (.var 'a') (.var 'b')) ∧
    (Node.binop Op.div (.var 'a') (.var 'b')).evaluate
      (fun c => if c = 'a' then some 5 else if c = 'b' then some 0 else none) =
      .error .divisionByZero) :=
  ⟨rfl, rfl, c7_division_by_zero (.var 'a') (.var 'b') _ 5 1 rfl rfl⟩

/-- Claim C8: `/` evaluates with floor (truncate-toward-negative-
infinity) semantics: a `/` node whose operands evaluate to `a` and a
non-zero `b` returns `⌊a / b⌋` exactly; `5/2` yields `2` and `-5/2`
yields `-3` (the parser binds the unary minus to the literal first). -/
theorem c8_floor_division (l r : Node) (vars : Vars) (a b : Int)
    (hl : l.evaluate vars = .ok a) (hr : r.evaluate vars = .ok b) (hb : b ≠ 0) :
    (Node.binop Op.div l r).evaluate vars = .ok ⌊(a : ℚ) / (b : ℚ)⌋ ∧
    parse "5/2" = .ok (.binop Op.div (.lit 5) (.lit 2)) ∧
    (Node.binop Op.div (.lit 5) (.lit 2)).evaluate (fun _ => none) = .ok 2 ∧
    parse "-5/2" = .ok (.binop Op.div (.neg (.lit 5)) (.lit 2)) ∧
    (Node.binop Op.div (.neg (.lit 5)) (.lit 2)).evaluate (fun _ => none) = .ok (-3) := by
  refine ⟨?_, rfl, rfl, rfl, rfl⟩
  simp only [Node.evaluate, hl, hr, applyOp, if_neg hb]
  rw [fdiv_eq_floor a b hb]

/-- Witness for C8 at `7 / (-2)`, whose floor quotient is `-4`. -/
theorem c8_witness :
    (Node.lit 7).evaluate (fun _ => none) = .ok 7 ∧
    (Node.lit (-2)).evaluate (fun _ => none) = .ok (-2) ∧
    (-2 : Int) ≠ 0 ∧
    ((Node.binop Op.div (.lit 7) (.lit (-2))).evaluate (fun _ => none) =
      .ok ⌊(7 : ℚ) / ((-2 : Int) : ℚ)⌋ ∧
    parse "5/2" = .ok (.binop Op.div (.lit 5) (.lit 2)) ∧
    (Node.binop Op.div (.lit 5) (.lit 2)).evaluate (fun _ => none) = .ok 2 ∧
    parse "-5/2" = .ok (.binop Op.div (.neg (.lit 5)) (.lit 2)) ∧
    (Node.binop Op.div (.neg (.lit 5)) (.lit 2)).evaluate (fun _ => none) = .ok (-3)) :=
  ⟨rfl, rfl, by decide,
    c8_floor_division (.lit 7) (.lit (-2)) _ 7 (-2) rfl rfl (by decide)⟩

/-- Claim C9: parsing the empty string raises `ParseError`: the parser
reaches the end of the input while expecting a primary, where
`_current` returns the empty sentinel, and reports the
unexpected-character error. -/
theorem c9_empty_input_parse_error :
    parse "" = .error (.unexpectedChar none) := by
  rfl

/-- Claim C10: every literal in a tree returned by a successful parse
holds a non-negative integer — digit scanning never consumes a sign,
and a leading minus always becomes a separate `UnaryMinus` node. -/
theorem c10_parse_literals_nonneg (s : String) (t : Node)
    (h : parse s = .ok t) : litsNonneg t = true := by
  have h' : (match parseExpression (3 * (stripSpaces s).length + 10) 0 (stripSpaces s) with
    | .error e => (.error e : Except ParseErr Node)
    | .ok (node, rest) =>
      if rest = [] then .ok node else .error .trailingInput) = .ok t := h
  cases he : parseExpression (3 * (stripSpaces s).length + 10) 0 (stripSpaces s) with
  | error e => rw [he] at h'; cases h'
  | ok p =>
    obtain ⟨node, rest⟩ := p
    rw [he] at h'
    dsimp only at h'
    by_cases hr : rest = []
    · rw [if_pos hr] at h'
      cases Except.ok.inj h'
      exact (parser_litsNonneg _).1 _ _ _ _ he
    · rw [if_neg hr] at h'
      cases h'

/-- Witness for C10 at the input `"2-13"`. -/
theorem c10_witness :
    parse "2-13" = .ok (.binop Op.sub (.lit 2) (.lit 13)) ∧
    litsNonneg (.binop Op.sub (.lit 2) (.lit 13)) = true :=
  ⟨rfl, c10_parse_literals_nonneg "2-13" _ rfl⟩

end Ikm
